import Mathlib

/-!
Shallow embedding of the gowatch event-debouncing and command-orchestration
core (internal/runner/runner.go, internal/watcher, internal/config/detect.go).

Strings are modelled as `List Char` (`GoStr`); the repository's strings are
UTF-8 and every operation used here (prefix, suffix, substring, split,
replace) acts the same on the rune sequence, so the embedding is faithful for
the inputs the program handles.  `runtime.GOOS` is fixed to `linux` except
where a claim is explicitly about the Windows branch, in which case the GOOS
test is an explicit boolean parameter.  Wall-clock durations are not part of
the embedding: the `Duration` field of a result is modelled as 0.
-/

abbrev GoStr := List Char

/-- `strings.Contains s sub`: `sub` occurs as a contiguous substring of `s`. -/
def containsSub : GoStr → GoStr → Bool
  | s, sub =>
    if sub.isPrefixOf s then true
    else match s with
      | [] => false
      | _ :: rest => containsSub rest sub

/-- `strings.TrimSuffix s suf`. -/
def trimSuffixGo (s suf : GoStr) : GoStr :=
  if suf.isSuffixOf s then s.take (s.length - suf.length) else s

/-- `strings.TrimPrefix s pre`: drops one leading copy of `pre` when present. -/
def trimHeadGo (s pre : GoStr) : GoStr :=
  if pre.isPrefixOf s then s.drop pre.length else s

/-- Auxiliary scanner for `strings.Split` with a non-empty separator.
The fuel starts at `s.length` and every recursive call drops at least one
character of `s`, so the fuel never runs out for a non-empty separator. -/
def splitGoAux (sep : GoStr) : Nat → GoStr → GoStr → List GoStr
  | _, acc, [] => [acc.reverse]
  | 0, acc, rest => [acc.reverse ++ rest]
  | fuel + 1, acc, c :: rest =>
    if sep.isPrefixOf (c :: rest) then
      acc.reverse :: splitGoAux sep fuel [] (List.drop sep.length (c :: rest))
    else
      splitGoAux sep fuel (c :: acc) rest

/-- `strings.Split s sep` for the non-empty separators the source uses
(the only separator passed in the repository is the literal `**`). -/
def splitGo (sep s : GoStr) : List GoStr :=
  splitGoAux sep s.length [] s

/-- One replacement pass of `strings.ReplaceAll` for a non-empty `old`:
left-to-right, non-overlapping.  Fuel is `s.length`; each call consumes at
least one character of `s`. -/
def replaceAllAux : Nat → GoStr → GoStr → GoStr → GoStr
  | _, [], _, _ => []
  | 0, s, _, _ => s
  | fuel + 1, c :: rest, old, new =>
    if old.isPrefixOf (c :: rest) then
      new ++ replaceAllAux fuel (List.drop old.length (c :: rest)) old new
    else
      c :: replaceAllAux fuel rest old new

/-- `strings.ReplaceAll s old new`.  For an empty `old`, Go inserts `new`
before every rune and once at the end; the source only ever passes the
non-empty literals `{path}` and `{event}`. -/
def replaceAllGo (s old new : GoStr) : GoStr :=
  if old = [] then new ++ s.foldr (fun c acc => c :: (new ++ acc)) []
  else replaceAllAux s.length s old new

/-- `strings.ToLower` restricted to ASCII, which is all the source compares
(the shell-name table is ASCII). -/
def toLowerGo (s : GoStr) : GoStr := s.map Char.toLower

/-- `strings.Join parts " "`. -/
def joinSpace : List GoStr → GoStr
  | [] => []
  | [p] => p
  | p :: rest => p ++ ' ' :: joinSpace rest

/-! ## internal/runner/runner.go -/

/-- `config.Command`: the token list and the (unparsed) timeout string. -/
structure Command where
  Cmd : List GoStr
  Timeout : GoStr
deriving DecidableEq, Repr

/-- `runner.RunResult`.  `ErrorMsg = none` models a nil `Error`; `Duration`
is wall-clock time, which is outside the embedding and fixed at 0. -/
structure RunResult where
  Command : List GoStr
  ExitCode : Int
  Duration : Nat
  ErrorMsg : Option GoStr
deriving DecidableEq, Repr

/-- The Go zero value of `RunResult` (what an abandoned parallel slot keeps). -/
def zeroRunResult : RunResult := ⟨[], 0, 0, none⟩

/-- `Runner.replacePlaceholders` (runner.go:281-289): per token, first
`strings.ReplaceAll part "{path}" path`, then
`strings.ReplaceAll part "{event}" event`. -/
def replacePlaceholders (cmd : List GoStr) (path event : GoStr) : List GoStr :=
  cmd.map fun part =>
    replaceAllGo (replaceAllGo part "{path}".toList path) "{event}".toList event

/-- The shell-name table of `needsShell` (runner.go:255-260). -/
def shellCommands : List GoStr := ["sh".toList, "bash".toList, "powershell".toList, "pwsh".toList]

/-- The operator substrings of `needsShell` (runner.go:271). -/
def shellOperators : List GoStr :=
  ["|".toList, ">".toList, "<".toList, ">>".toList, "&&".toList, "||".toList, "&".toList]

/-- `runner.needsShell` (runner.go:249-279). -/
def needsShell (cmd : List GoStr) : Bool :=
  match cmd with
  | [] => false
  | first :: _ =>
    let firstCmd := toLowerGo first
    if shellCommands.contains firstCmd then true
    else
      let fullCmd := joinSpace cmd
      shellOperators.any fun op => containsSub fullCmd op

/-- How `executeCommand` (runner.go:156-168) builds the `exec.Cmd` from a
non-empty substituted token list: passed whole to `cmd.exe /C` on Windows
when `needsShell` holds, executed directly otherwise. -/
inductive PreparedCmd where
  | direct (name : GoStr) (args : List GoStr)
  | shell (shellCmd : GoStr)
deriving DecidableEq, Repr

def prepareCommand (goosWindows : Bool) (tokens : List GoStr) : PreparedCmd :=
  match tokens with
  | [] => .direct [] []
  | first :: rest =>
    if goosWindows && needsShell (first :: rest) then
      .shell (joinSpace (first :: rest))
    else
      .direct first rest

/-- Outcome of the OS-level part of one command execution (pipe setup,
`Start`, `Wait`).  `waitExitErr c` models `*exec.ExitError` with
`ExitCode() = c`; Go returns such an error only for a nonzero status or a
signal (`ExitCode() = -1`), never for status 0. -/
inductive ProcOutcome where
  | stdoutPipeFail
  | stderrPipeFail
  | startFail
  | waitOK
  | waitExitErr (code : Int)
  | waitOtherErr
deriving DecidableEq, Repr

/-- `Runner.executeCommand` (runner.go:119-246) as a function of the process
outcome.  Returns the `RunResult` and whether `command.Start()` was reached
(i.e. whether spawning an external process was attempted). -/
def executeCommand (dryRun : Bool) (cmd : Command) (path event : GoStr)
    (out : ProcOutcome) : RunResult × Bool :=
  let cw := replacePlaceholders cmd.Cmd path event
  if dryRun then (⟨cw, 0, 0, none⟩, false)
  else if cw = [] then (⟨cw, -1, 0, some "empty command".toList⟩, false)
  else
    match out with
    | .stdoutPipeFail => (⟨cw, -1, 0, some "failed to get stdout pipe".toList⟩, false)
    | .stderrPipeFail => (⟨cw, -1, 0, some "failed to get stderr pipe".toList⟩, false)
    | .startFail => (⟨cw, -1, 0, some "failed to start command".toList⟩, true)
    | .waitOK => (⟨cw, 0, 0, none⟩, true)
    | .waitExitErr c => (⟨cw, c, 0, some "exit error".toList⟩, true)
    | .waitOtherErr => (⟨cw, -1, 0, some "wait error".toList⟩, true)

/-- The sequential branch of `Runner.Run` (runner.go:59-68): execute in list
order, append each result, stop after the first result with a non-nil error
and nonzero exit code.  Each command is paired with its process outcome. -/
def runSeq (dryRun : Bool) (path event : GoStr) :
    List (Command × ProcOutcome) → List RunResult
  | [] => []
  | (c, o) :: rest =>
    let r := (executeCommand dryRun c path event o).1
    if r.ErrorMsg.isSome && r.ExitCode != 0 then [r]
    else r :: runSeq dryRun path event rest

/-- The spec's account of sequential mode: results of the commands that ran,
in order, stopping right after the first result whose exit code is nonzero. -/
def resultsUpToFailure : List RunResult → List RunResult
  | [] => []
  | r :: rest => if r.ExitCode ≠ 0 then [r] else r :: resultsUpToFailure rest

/-! ## path/filepath Match and Base (Go standard library, GOOS = linux,
Separator = the slash).  `Config.ShouldIgnore` calls `filepath.Match`, so the
matcher is embedded in full.  Go walks runes; `Char` plays the rune. -/

/-- The scanning loop of `filepath.Match`'s `scanChunk`, after leading stars
are stripped: collect up to the next star that is not inside a bracket
range, keeping a backslash together with its escaped character. -/
def scanChunkBody : GoStr → Bool → GoStr × GoStr
  | [], _ => ([], [])
  | '\\' :: c :: rest, inrange =>
    let (chunk, r) := scanChunkBody rest inrange
    ('\\' :: c :: chunk, r)
  | ['\\'], _ => (['\\'], [])
  | '[' :: rest, _ =>
    let (chunk, r) := scanChunkBody rest true
    ('[' :: chunk, r)
  | ']' :: rest, _ =>
    let (chunk, r) := scanChunkBody rest false
    (']' :: chunk, r)
  | '*' :: rest, inrange =>
    if inrange then
      let (chunk, r) := scanChunkBody rest inrange
      ('*' :: chunk, r)
    else ([], '*' :: rest)
  | c :: rest, inrange =>
    let (chunk, r) := scanChunkBody rest inrange
    (c :: chunk, r)

/-- `scanChunk`: strip leading stars (recording whether there was one), then
scan one chunk. -/
def scanChunk (p : GoStr) : Bool × GoStr × GoStr :=
  let star := match p with | '*' :: _ => true | _ => false
  let p2 := p.dropWhile (fun c => c == '*')
  let (chunk, rest) := scanChunkBody p2 false
  (star, chunk, rest)

/-- `getEsc`: read one (possibly backslash-escaped) range endpoint; a bad
pattern is `.error ()` (Go's `ErrBadPattern`). -/
def getEsc : GoStr → Except Unit (Char × GoStr)
  | [] => .error ()
  | c :: rest =>
    if c = '-' || c = ']' then .error ()
    else if c = '\\' then
      match rest with
      | [] => .error ()
      | r :: rest2 => if rest2 = [] then .error () else .ok (r, rest2)
    else if rest = [] then .error () else .ok (c, rest)

/-- The range-parsing loop of `matchChunk`'s bracket case: returns whether
the rune matched some range, and the chunk after the closing bracket.  Each
iteration consumes at least one chunk character, so fuel `chunk.length + 1`
never runs out. -/
def parseClass : Nat → GoStr → Char → Bool → Nat → Except Unit (Bool × GoStr)
  | 0, _, _, _, _ => .error ()
  | fuel + 1, chunk, r, m, nrange =>
    match chunk, nrange with
    | ']' :: rest, Nat.succ _ => .ok (m, rest)
    | ck, _ =>
      match getEsc ck with
      | .error () => .error ()
      | .ok (lo, rest1) =>
        match rest1 with
        | '-' :: rest1b =>
          match getEsc rest1b with
          | .error () => .error ()
          | .ok (hi, rest2) =>
            parseClass fuel rest2 r (m || (decide (lo ≤ r) && decide (r ≤ hi))) (nrange + 1)
        | _ =>
          parseClass fuel rest1 r (m || (decide (lo ≤ r) && decide (r ≤ lo))) (nrange + 1)

/-- `matchChunk chunk s`: `.ok (some rest)` when the chunk matches a leading
part of `s` leaving `rest`, `.ok none` on a clean mismatch, `.error ()` on a
bad pattern.  Each iteration consumes at least one chunk character, so fuel
`chunk.length + 1` never runs out. -/
def matchChunk : Nat → GoStr → GoStr → Bool → Except Unit (Option GoStr)
  | _, [], s, failed => if failed then .ok none else .ok (some s)
  | 0, _, _, _ => .error ()
  | fuel + 1, c :: chunkRest, s, failed0 =>
    let failed := failed0 || s.isEmpty
    if c = '[' then
      let rs : Char × GoStr := match failed, s with
        | false, sc :: srest => (sc, srest)
        | _, _ => ('\x00', s)
      let nc : Bool × GoStr := match chunkRest with
        | '^' :: cr => (true, cr)
        | _ => (false, chunkRest)
      match parseClass (nc.2.length + 1) nc.2 rs.1 false 0 with
      | .error () => .error ()
      | .ok (m, chunk3) => matchChunk fuel chunk3 rs.2 (failed || (m == nc.1))
    else if c = '?' then
      match failed, s with
      | false, sc :: srest => matchChunk fuel chunkRest srest (sc == '/')
      | _, _ => matchChunk fuel chunkRest s failed
    else if c = '\\' then
      match chunkRest with
      | [] => .error ()
      | ec :: chunkRest2 =>
        match failed, s with
        | false, sc :: srest => matchChunk fuel chunkRest2 srest (ec != sc)
        | _, _ => matchChunk fuel chunkRest2 s failed
    else
      match failed, s with
      | false, sc :: srest => matchChunk fuel chunkRest srest (c != sc)
      | _, _ => matchChunk fuel chunkRest s failed

/-- Outcome of the star-skip loop of `filepath.Match`: a bad pattern, a
definitive mismatch, or the remaining name with which the `Pattern:` loop
continues. -/
inductive StarOut where
  | bad
  | nomatch
  | cont (t : GoStr)
deriving DecidableEq, Repr

/-- The star-skip loop of `filepath.Match`: retry the chunk at each later
position of `name`, never crossing a slash.  On the first acceptable
position it yields the leftover name (`continue Pattern` in the source). -/
def starScan (chunk rest : GoStr) : GoStr → StarOut
  | [] => .nomatch
  | c :: nrest =>
    if c == '/' then .nomatch
    else
      match matchChunk (chunk.length + 1) chunk nrest false with
      | .error () => .bad
      | .ok (some t) =>
        if rest.isEmpty && !t.isEmpty then starScan chunk rest nrest
        else .cont t
      | .ok none => starScan chunk rest nrest

/-- The `Pattern:` loop of `filepath.Match`.  Every iteration consumes at
least one pattern character, so fuel `pattern.length + 1` never runs out. -/
def matchGoAux : Nat → GoStr → GoStr → Except Unit Bool
  | _, [], name => .ok name.isEmpty
  | 0, _, _ => .error ()
  | fuel + 1, pat, name =>
    let sc := scanChunk pat
    let star := sc.1
    let chunk := sc.2.1
    let rest := sc.2.2
    if star && chunk.isEmpty then
      .ok (!containsSub name ['/'])
    else
      let fallback : Except Unit Bool :=
        if star then
          match starScan chunk rest name with
          | .bad => .error ()
          | .nomatch => .ok false
          | .cont t => matchGoAux fuel rest t
        else .ok false
      match matchChunk (chunk.length + 1) chunk name false with
      | .error () => .error ()
      | .ok (some t) =>
        if t.isEmpty || !rest.isEmpty then matchGoAux fuel rest t
        else fallback
      | .ok none => fallback

/-- `filepath.Match pattern name`: `none` models `ErrBadPattern`. -/
def matchGo (pattern name : GoStr) : Option Bool :=
  match matchGoAux (pattern.length + 1) pattern name with
  | .ok b => some b
  | .error () => none

/-- The `err == nil && matched` idiom of `Config.ShouldIgnore`. -/
def matchOK (pattern name : GoStr) : Bool := matchGo pattern name == some true

/-- `filepath.Base` on linux: strip trailing slashes, take the last path
element, with the documented special cases for the empty and all-slash
paths. -/
def baseGo (path : GoStr) : GoStr :=
  if path.isEmpty then ['.']
  else
    let p1 := (path.reverse.dropWhile (fun c => c == '/')).reverse
    let p2 := (p1.reverse.takeWhile (fun c => c != '/')).reverse
    if p2.isEmpty then ['/'] else p2

/-! ## internal/config: the ignore predicate (detect.go:439-487) -/

/-- `config.WatchPath`: one configured watch root. -/
structure WatchPath where
  Path : GoStr
  Recursive : Bool
  Ignore : List GoStr
deriving DecidableEq, Repr

/-- The fields of `config.Config` the core reads. -/
structure Config where
  Watch : List WatchPath
  MaxConcurrency : Nat
deriving DecidableEq, Repr

/-- The `**` branch of `Config.ShouldIgnore` (detect.go:462-476): split the
pattern on `**`; when that yields exactly two parts, strip a trailing slash
from the part before and a leading slash from the part after, and match when
the path starts with the former and is empty / ends with / contains the
latter. -/
def doubleStarRule (pattern path : GoStr) : Bool :=
  if containsSub pattern "**".toList then
    match splitGo "**".toList pattern with
    | [p0, p1] =>
      let pfx := trimSuffixGo p0 "/".toList
      let sfx := trimHeadGo p1 "/".toList
      (pfx.isEmpty || pfx.isPrefixOf path) &&
        (sfx.isEmpty || sfx.isSuffixOf path || containsSub path sfx)
    | _ => false
  else false

/-- The trailing-slash branch of `Config.ShouldIgnore` (detect.go:479-485):
`vendor/` matches the `vendor` directory itself or anything under it. -/
def dirSlashRule (pattern path : GoStr) : Bool :=
  if "/".toList.isSuffixOf pattern then
    let dirPat := trimSuffixGo pattern "/".toList
    (dirPat ++ "/".toList).isPrefixOf path || path == dirPat
  else false

/-- `Config.ShouldIgnore` (detect.go:439-487).  `filepath.ToSlash` is the
identity on linux.  The early returns inside the nested loops are the
disjunction of the four checks over every pattern of every watch root. -/
def Config.ShouldIgnore (c : Config) (path : GoStr) : Bool :=
  let base := baseGo path
  c.Watch.any fun w =>
    w.Ignore.any fun pattern =>
      matchOK pattern base || matchOK pattern path ||
        doubleStarRule pattern path || dirSlashRule pattern path

/-! ## internal/watcher (src/unnamed/part_001) -/

/-- `Watcher.shouldIgnore` (watcher part_001:126-169) with GOOS fixed to
linux: the Windows-only transient-file checks are skipped on this GOOS, and
the `.gowatchignore` probe at the end has no effect in the source.  The
method reads only the watcher's config, which is therefore the argument. -/
def Watcher.shouldIgnore (cfg : Config) (path : GoStr) : Bool :=
  let base := baseGo path
  if ".".toList.isPrefixOf base && base != ".".toList then true
  else if cfg.ShouldIgnore path then true
  else false

/-- `Watcher.addSingle` (part_001:89-104).  The `watched` map with `true`
values is a set, modelled as a list with membership semantics; `osAddOk`
models whether `fsWatcher.Add` succeeds.  Returns the new set, whether the
call succeeded (`nil` error), and whether `fsWatcher.Add` was invoked. -/
def addSingle (watched : List GoStr) (path : GoStr) (osAddOk : Bool) :
    List GoStr × Bool × Bool :=
  if path ∈ watched then (watched, true, false)
  else if osAddOk then (path :: watched, true, true)
  else (watched, false, true)

/-- A run of watched-set mutations.  Every write to `watched` in the source
(initial registration in `Start`/`addPath`, the recursive walk in
`addRecursive`, and the live CREATE handler in `processEvents`) goes through
`addSingle`; a run is the fold of those calls. -/
def addMany (watched : List GoStr) : List (GoStr × Bool) → List GoStr
  | [] => watched
  | (p, ok) :: rest => addMany (addSingle watched p ok).1 rest

/-! ## The Debouncer (part_001:253-293)

`Add` under the mutex stops the key's live timer, overwrites the pending
action, and schedules a new timer at `now + delay`; a timer that reaches its
deadline unstopped fires, removing and running the pending action.  The
state keeps one entry per key (the source's `timers` and `pending` maps
always hold exactly the same keys while the mutex is free).  Time is a
discrete `Nat`; `Add` calls are supplied in time order, and a timer whose
deadline is at or before the next call's time fires first — when a call
arrives strictly before the key's deadline (the only case the claims use),
`timer.Stop` in the source is guaranteed to win, and this model is exact. -/

structure DebEntry where
  key : GoStr
  act : Nat
  deadline : Nat
deriving DecidableEq, Repr

/-- `Debouncer.Add` at time `t`: cancel the key's timer, keep only the new
action, reschedule at `t + delay`. -/
def debAdd (delay : Nat) (st : List DebEntry) (t : Nat) (k : GoStr) (a : Nat) :
    List DebEntry :=
  ⟨k, a, t + delay⟩ :: st.filter (fun e => e.key ≠ k)

/-- Run the debouncer over a time-ordered list of `(time, key, action)`
`Add` calls, firing due timers as time passes; afterwards every remaining
timer fires at its deadline.  The result is the list of
`(fire time, key, action)` executions. -/
def runDeb (delay : Nat) : List (Nat × GoStr × Nat) → List DebEntry →
    List (Nat × GoStr × Nat) → List (Nat × GoStr × Nat)
  | [], st, log => log ++ st.map (fun e => (e.deadline, e.key, e.act))
  | (t, k, a) :: rest, st, log =>
    let fired := st.filter (fun e => e.deadline ≤ t)
    let live := st.filter (fun e => ¬ (e.deadline ≤ t))
    runDeb delay rest (debAdd delay live t k a)
      (log ++ fired.map (fun e => (e.deadline, e.key, e.act)))

/-- The gap condition of the coalescing claim, as a computable predicate:
call times are non-decreasing and each call arrives strictly before the
previous call's deadline. -/
def gapsOK (delay : Nat) : List (Nat × Nat) → Bool
  | (t1, _) :: (t2, a2) :: rest =>
    decide (t1 ≤ t2) && decide (t2 < t1 + delay) && gapsOK delay ((t2, a2) :: rest)
  | _ => true

/-! ## `Runner.executeParallel` (runner.go:92-117) as a transition system

One goroutine per command index writes only its own slot of a pre-sized
result slice; a channel of capacity `MaxConcurrency` is the admission gate.
A goroutine is `waiting` until its `select` resolves: it either receives a
slot (possible whenever fewer than `M` goroutines hold one — `acquire`) or,
once the shared context is cancelled, may abandon (`abandon`).  `finish`
models `executeCommand` returning: the slot value is written and the
semaphore is released.  `executeCommand` never returns an error to
`errgroup.Go`, so the group context is cancelled exactly when the parent
context is (`cancel`, an external event).  `execRes i` is command `i`'s
`RunResult`. -/

inductive GStatus where
  | waiting
  | running
  | doneRan
  | doneAbandoned
deriving DecidableEq, Repr

structure PState where
  status : List GStatus
  slots : List RunResult
  cancelled : Bool
deriving DecidableEq, Repr

/-- `results := make([]RunResult, len(commands))`: all goroutines waiting,
all slots zero-valued, context not yet cancelled. -/
def pInit (n : Nat) : PState :=
  ⟨List.replicate n .waiting, List.replicate n zeroRunResult, false⟩

/-- Number of goroutines currently holding a semaphore slot. -/
def countRunning : List GStatus → Nat
  | [] => 0
  | .running :: rest => countRunning rest + 1
  | _ :: rest => countRunning rest

inductive PStep (M : Nat) (execRes : Nat → RunResult) : PState → PState → Prop
  | acquire (st : PState) (i : Nat) :
      st.status.get? i = some .waiting →
      countRunning st.status < M →
      PStep M execRes st ⟨st.status.set i .running, st.slots, st.cancelled⟩
  | abandon (st : PState) (i : Nat) :
      st.status.get? i = some .waiting →
      st.cancelled = true →
      PStep M execRes st ⟨st.status.set i .doneAbandoned, st.slots, st.cancelled⟩
  | finish (st : PState) (i : Nat) :
      st.status.get? i = some .running →
      PStep M execRes st
        ⟨st.status.set i .doneRan, st.slots.set i (execRes i), st.cancelled⟩
  | cancel (st : PState) :
      st.cancelled = false →
      PStep M execRes st ⟨st.status, st.slots, true⟩

/-- States reachable from the initial state of an `executeParallel` call
with `n` commands. -/
inductive PReach (n M : Nat) (execRes : Nat → RunResult) : PState → Prop
  | init : PReach n M execRes (pInit n)
  | step {st st' : PState} : PReach n M execRes st → PStep M execRes st st' →
      PReach n M execRes st'

/-! ## Spec-side comparison definitions -/

/-- The claim's reading of the `**` rule, verbatim: the path starts with the
text before `**` (after stripping a trailing slash) AND the remainder after
`**` is empty, or the path ends with it, or the path contains it as a
substring.  Unlike the source, the remainder keeps a leading slash. -/
def claimDoubleStarRule (pattern path : GoStr) : Bool :=
  if containsSub pattern "**".toList then
    match splitGo "**".toList pattern with
    | [p0, p1] =>
      (trimSuffixGo p0 "/".toList).isPrefixOf path &&
        (p1.isEmpty || p1.isSuffixOf path || containsSub path p1)
    | _ => false
  else false

/-- The claim's shell-name set: a POSIX shell, a Windows command shell, or
PowerShell, compared case-insensitively against the first token. -/
def claimShellNames : List GoStr :=
  ["sh".toList, "bash".toList, "cmd".toList, "cmd.exe".toList,
   "powershell".toList, "pwsh".toList]

/-- The claim's shell-interpretation predicate: first token is an explicit
shell name (including the Windows command shell), or the space-joined token
sequence contains a shell operator. -/
def needsShellClaim (cmd : List GoStr) : Bool :=
  match cmd with
  | [] => false
  | first :: _ =>
    claimShellNames.contains (toLowerGo first) ||
      shellOperators.any fun op => containsSub (joinSpace cmd) op

/-! ## C7: empty command after substitution -/

/-- C7: when the token list is empty after placeholder substitution and
dry-run is off, `executeCommand` returns exit code -1 with the
"empty command" error detail, and `command.Start()` is never reached. -/
theorem executeCommand_empty_command_sentinel (cmd : Command) (path event : GoStr)
    (out : ProcOutcome)
    (hempty : replacePlaceholders cmd.Cmd path event = []) :
    executeCommand false cmd path event out =
      (⟨[], -1, 0, some "empty command".toList⟩, false) := by
  simp [executeCommand, hempty]

theorem executeCommand_empty_command_sentinel_witness :
    replacePlaceholders (Command.mk [] []).Cmd "/tmp/test.go".toList "WRITE".toList = [] ∧
    executeCommand false ⟨[], []⟩ "/tmp/test.go".toList "WRITE".toList .waitOK =
      (⟨[], -1, 0, some "empty command".toList⟩, false) :=
  ⟨by decide,
   executeCommand_empty_command_sentinel ⟨[], []⟩ _ _ .waitOK (by decide)⟩

/-! ## C10: substitution is sequential, not simultaneous -/

/-- C10: `replacePlaceholders` rewrites each token by substituting `{path}`
first and `{event}` only afterwards; consequently an `{event}` brought in by
the path itself is replaced too, for every event string. -/
theorem replacePlaceholders_sequential :
    (∀ (cmd : List GoStr) (path event : GoStr),
      replacePlaceholders cmd path event =
        (cmd.map fun part => replaceAllGo part "{path}".toList path).map
          fun part => replaceAllGo part "{event}".toList event) ∧
    (∀ event : GoStr,
      replacePlaceholders ["{path}".toList] "/tmp/{event}.go".toList event =
        ["/tmp/".toList ++ event ++ ".go".toList]) := by
  constructor
  · intro cmd path event
    simp [replacePlaceholders]
  · intro event
    rfl

/-! ## C6: placeholder substitution (corrected: not simultaneous/verbatim) -/

/-- C6 counterexample: with a triggering path that itself contains the
literal `{event}`, the token `{path}` does not resolve to the path verbatim:
the `{event}` inside the substituted path is rewritten as well. -/
theorem replacePlaceholders_not_verbatim :
    replacePlaceholders ["{path}".toList] "/a{event}b".toList "WRITE".toList ≠
      ["/a{event}b".toList] ∧
    replacePlaceholders ["{path}".toList] "/a{event}b".toList "WRITE".toList =
      ["/aWRITEb".toList] := by
  exact ⟨by decide, by decide⟩

/-- C6 amended: substitution rewrites every token independently by replacing
all `{path}` occurrences with the path and then all `{event}` occurrences
with the event, leaves the token count unchanged, and resolves the claim's
two concrete examples as stated. -/
theorem replacePlaceholders_amended :
    (∀ (cmd : List GoStr) (path event : GoStr),
      (replacePlaceholders cmd path event).length = cmd.length) ∧
    (∀ (cmd : List GoStr) (path event : GoStr),
      replacePlaceholders cmd path event = cmd.map fun part =>
        replaceAllGo (replaceAllGo part "{path}".toList path) "{event}".toList event) ∧
    replacePlaceholders ["echo".toList, "{path}".toList]
        "/tmp/test.go".toList "WRITE".toList =
      ["echo".toList, "/tmp/test.go".toList] ∧
    replacePlaceholders ["process".toList, "{path}".toList, "--event={event}".toList]
        "/tmp/test.go".toList "CREATE".toList =
      ["process".toList, "/tmp/test.go".toList, "--event=CREATE".toList] := by
  refine ⟨?_, ?_, by decide, by decide⟩
  · intro cmd path event
    simp [replacePlaceholders]
  · intro cmd path event
    rfl

/-! ## C8: shell-interpretation predicate (corrected: no Windows command
shell in the name table) -/

/-- C8 counterexample: a command whose first token is the Windows command
shell and which contains no shell operator is not sent to the shell by the
source, although the claim's predicate says it is. -/
theorem needsShell_cmd_exe_counterexample :
    needsShell ["cmd.exe".toList, "/C".toList, "dir".toList] = false ∧
    needsShellClaim ["cmd.exe".toList, "/C".toList, "dir".toList] = true := by
  exact ⟨by decide, by decide⟩

/-- C8 amended: `needsShell` is false on the empty token list and otherwise
true exactly when the lower-cased first token is one of `sh`, `bash`,
`powershell`, `pwsh` (the Windows command shell is not in the table) or the
space-joined tokens contain a shell operator; and on Windows a command with
`needsShell` true is passed whole to `cmd.exe /C`. -/
theorem needsShell_characterization :
    needsShell [] = false ∧
    (∀ (first : GoStr) (rest : List GoStr),
      needsShell (first :: rest) =
        (shellCommands.contains (toLowerGo first) ||
          shellOperators.any fun op => containsSub (joinSpace (first :: rest)) op)) ∧
    (∀ tokens : List GoStr, tokens ≠ [] → needsShell tokens = true →
      prepareCommand true tokens = .shell (joinSpace tokens)) := by
  refine ⟨rfl, ?_, ?_⟩
  · intro first rest
    by_cases h : shellCommands.contains (toLowerGo first) <;>
      simp [needsShell, h]
  · intro tokens hne hns
    match tokens with
    | first :: rest => simp [prepareCommand, hns]

theorem needsShell_characterization_witness :
    (["bash".toList] : List GoStr) ≠ [] ∧
    needsShell ["bash".toList] = true ∧
    prepareCommand true ["bash".toList] = .shell (joinSpace ["bash".toList]) :=
  ⟨by decide, by decide,
   needsShell_characterization.2.2 ["bash".toList] (by decide) (by decide)⟩

/-! ## C2: sequential short-circuit -/

/-- In every branch of `executeCommand`, a nonzero exit code comes with a
non-nil error detail, so the source's stop test
(`result.Error != nil && result.ExitCode != 0`) coincides with the spec's
"nonzero exit code". -/
theorem executeCommand_exit_ne_zero_errorMsg (dryRun : Bool) (c : Command)
    (path event : GoStr) (o : ProcOutcome)
    (h : (executeCommand dryRun c path event o).1.ExitCode ≠ 0) :
    (executeCommand dryRun c path event o).1.ErrorMsg.isSome = true := by
  revert h
  unfold executeCommand
  by_cases hd : dryRun
  · simp [hd]
  · by_cases he : replacePlaceholders c.Cmd path event = []
    · simp [hd, he]
    · cases o <;> simp [hd, he]

/-- C2: the sequential branch of `Run` executes commands in list order and
returns exactly the results of the commands that ran, cut right after the
first result with a nonzero exit code. -/
theorem run_sequential_short_circuit (dryRun : Bool) (path event : GoStr)
    (jobs : List (Command × ProcOutcome)) :
    runSeq dryRun path event jobs =
      resultsUpToFailure
        (jobs.map fun j => (executeCommand dryRun j.1 path event j.2).1) := by
  induction jobs with
  | nil => rfl
  | cons j rest ih =>
    obtain ⟨c, o⟩ := j
    simp only [runSeq, resultsUpToFailure, List.map_cons]
    by_cases h0 : (executeCommand dryRun c path event o).1.ExitCode = 0
    · simp [resultsUpToFailure, h0, ih]
    · have hsome := executeCommand_exit_ne_zero_errorMsg dryRun c path event o h0
      simp [resultsUpToFailure, h0, hsome]

/-- The claim's concrete pair: command A failing with exit code 1 followed
by command B that would succeed; only A's result is returned. -/
theorem run_sequential_short_circuit_witness :
    runSeq false "/tmp/test.go".toList "WRITE".toList
        [(⟨["false".toList], []⟩, .waitExitErr 1), (⟨["echo".toList, "ok".toList], []⟩, .waitOK)] =
      resultsUpToFailure
        ([(⟨["false".toList], []⟩, ProcOutcome.waitExitErr 1),
          (⟨["echo".toList, "ok".toList], []⟩, ProcOutcome.waitOK)].map fun j =>
          (executeCommand false j.1 "/tmp/test.go".toList "WRITE".toList j.2).1) ∧
    (runSeq false "/tmp/test.go".toList "WRITE".toList
        [(⟨["false".toList], []⟩, .waitExitErr 1),
         (⟨["echo".toList, "ok".toList], []⟩, .waitOK)]).length = 1 ∧
    (runSeq false "/tmp/test.go".toList "WRITE".toList
        [(⟨["false".toList], []⟩, .waitExitErr 1),
         (⟨["echo".toList, "ok".toList], []⟩, .waitOK)]).head?.map RunResult.ExitCode =
      some 1 :=
  ⟨run_sequential_short_circuit false "/tmp/test.go".toList "WRITE".toList _,
   by decide, by decide⟩

/-! ## C9: the watched set only grows -/

/-- Everything watched stays watched across one `addSingle` call. -/
theorem mem_addSingle (watched : List GoStr) (p q : GoStr) (ok : Bool)
    (h : q ∈ watched) : q ∈ (addSingle watched p ok).1 := by
  unfold addSingle
  by_cases hp : p ∈ watched
  · simpa [hp]
  · by_cases hok : ok <;> simp [hp, hok, h]

/-- C9: every watched-set mutation of the Watch Tree Manager goes through
`addSingle`; an already-present path leaves the set unchanged, succeeds and
skips `fsWatcher.Add`, and no sequence of registrations (initial paths,
recursive walk, live CREATE registration) ever removes a path. -/
theorem watched_set_only_grows (watched : List GoStr) (reqs : List (GoStr × Bool))
    (p : GoStr) (ok : Bool) (hq : p ∈ watched) :
    addSingle watched p ok = (watched, true, false) ∧
    p ∈ addMany watched reqs := by
  constructor
  · unfold addSingle
    simp [hq]
  · induction reqs generalizing watched with
    | nil => simpa [addMany]
    | cons r rest ih =>
      obtain ⟨rp, rok⟩ := r
      exact ih _ (mem_addSingle watched rp p rok hq)

theorem watched_set_only_grows_witness :
    addSingle ["/tmp/a".toList, "/tmp/b".toList] "/tmp/a".toList true =
      (["/tmp/a".toList, "/tmp/b".toList], true, false) ∧
    "/tmp/a".toList ∈
      addMany ["/tmp/a".toList, "/tmp/b".toList]
        [("/tmp/c".toList, true), ("/tmp/d".toList, false)] :=
  watched_set_only_grows ["/tmp/a".toList, "/tmp/b".toList]
    [("/tmp/c".toList, true), ("/tmp/d".toList, false)]
    "/tmp/a".toList true (by decide)

/-! ## C3: ignore-pattern semantics (corrected: the remainder after `**`
has a leading slash stripped before it is compared) -/

/-- C3 counterexample: for the pattern `v/**/s` and the path `vs`, the
source's `**` rule matches (it compares against `s`, the remainder with its
leading slash stripped), the claim's rule does not (it compares against
`/s`), and the full ignore predicate does return true for this
configuration, so the claimed equivalence fails. -/
theorem shouldIgnore_doubleStar_counterexample :
    doubleStarRule "v/**/s".toList "vs".toList = true ∧
    claimDoubleStarRule "v/**/s".toList "vs".toList = false ∧
    Watcher.shouldIgnore ⟨[⟨".".toList, true, ["v/**/s".toList]⟩], 2⟩ "vs".toList
      = true := by
  exact ⟨by decide, by decide, by decide⟩

/-- The watch configuration of the claim's concrete ignore example. -/
def cfgIgnoreExample : Config :=
  ⟨[⟨".".toList, true, ["*.tmp".toList, "vendor/**".toList, ".git/**".toList]⟩], 2⟩

/-- C3 amended: the predicate is true on every dotfile; a pattern splitting
as `before ++ "**" ++ after` matches exactly when the path starts with
`before` stripped of a trailing slash and `after` stripped of a leading
slash is empty, a suffix of the path, or a substring of it; and the claim's
concrete example behaves as stated. -/
theorem shouldIgnore_C3_amended :
    (∀ (cfg : Config) (path : GoStr),
      ".".toList.isPrefixOf (baseGo path) = true → baseGo path ≠ ".".toList →
      Watcher.shouldIgnore cfg path = true) ∧
    (∀ (pattern path p0 p1 : GoStr),
      splitGo "**".toList pattern = [p0, p1] →
      containsSub pattern "**".toList = true →
      doubleStarRule pattern path =
        ((trimSuffixGo p0 "/".toList).isPrefixOf path &&
          (let sfx := trimHeadGo p1 "/".toList
           sfx.isEmpty || sfx.isSuffixOf path || containsSub path sfx))) ∧
    Watcher.shouldIgnore cfgIgnoreExample "x.tmp".toList = true ∧
    Watcher.shouldIgnore cfgIgnoreExample "vendor/pkg/util.go".toList = true ∧
    Watcher.shouldIgnore cfgIgnoreExample ".git/config".toList = true ∧
    Watcher.shouldIgnore cfgIgnoreExample ".env".toList = true ∧
    Watcher.shouldIgnore cfgIgnoreExample "main.go".toList = false ∧
    Watcher.shouldIgnore cfgIgnoreExample "src/main.go".toList = false := by
  refine ⟨?_, ?_, by decide, by decide, by decide, by decide, by decide, by decide⟩
  · intro cfg path hdot hne
    simp only [Watcher.shouldIgnore]
    rw [if_pos]
    simp only [hdot, Bool.true_and]
    simpa using hne
  · intro pattern path p0 p1 hsplit hcontains
    unfold doubleStarRule
    rw [hcontains, hsplit]
    simp only [if_true]
    cases hp : trimSuffixGo p0 "/".toList with
    | nil => simp
    | cons a t => simp

theorem shouldIgnore_C3_amended_witness :
    ".".toList.isPrefixOf (baseGo ".env".toList) = true ∧
    baseGo ".env".toList ≠ ".".toList ∧
    Watcher.shouldIgnore cfgIgnoreExample ".env".toList = true :=
  ⟨by decide, by decide,
   shouldIgnore_C3_amended.1 cfgIgnoreExample ".env".toList (by decide) (by decide)⟩

/-! ## C1: debounce coalescing, last writer wins -/

/-- Inductive core of the coalescing proof: with a single pending entry for
key `k` and every later call for `k` arriving strictly before the current
deadline, the run fires exactly one action — the last one — at the last
deadline. -/
theorem runDeb_single_key (delay : Nat) (k : GoStr) :
    ∀ (adds : List (Nat × Nat)) (t0 a0 : Nat) (log : List (Nat × GoStr × Nat)),
      gapsOK delay ((t0, a0) :: adds) = true →
      runDeb delay (adds.map fun p => (p.1, k, p.2)) [⟨k, a0, t0 + delay⟩] log =
        log ++ [((adds.getLastD (t0, a0)).1 + delay, k, (adds.getLastD (t0, a0)).2)] := by
  intro adds
  induction adds with
  | nil =>
    intro t0 a0 log _h
    simp [runDeb]
  | cons hd rest ih =>
    intro t0 a0 log hg
    obtain ⟨t1, a1⟩ := hd
    have hg' : (decide (t0 ≤ t1) && decide (t1 < t0 + delay) &&
        gapsOK delay ((t1, a1) :: rest)) = true := hg
    rw [Bool.and_eq_true, Bool.and_eq_true] at hg'
    have hg1 : t1 < t0 + delay := by
      have := hg'.1.2
      simpa using this
    have hgrest : gapsOK delay ((t1, a1) :: rest) = true := hg'.2
    have hfire : ¬ (t0 + delay ≤ t1) := by omega
    simp only [List.map_cons, runDeb, List.filter, hfire, decide_eq_true_eq]
    simp only [decide_False, Bool.not_false, List.filter_nil]
    have hdeb : debAdd delay [⟨k, a0, t0 + delay⟩] t1 k a1 = [⟨k, a1, t1 + delay⟩] := by
      simp [debAdd]
    rw [List.getLastD_cons]
    calc runDeb delay (rest.map fun p => (p.1, k, p.2))
          (debAdd delay [⟨k, a0, t0 + delay⟩] t1 k a1) (log ++ List.map _ [])
        = runDeb delay (rest.map fun p => (p.1, k, p.2)) [⟨k, a1, t1 + delay⟩] log := by
          rw [hdeb]; simp
      _ = log ++ [((rest.getLastD (t1, a1)).1 + delay, k, (rest.getLastD (t1, a1)).2)] :=
          ih t1 a1 log hgrest

/-- C1: for a burst of `Add` calls on one key, each arriving (in time order)
strictly before the previous call's deadline, exactly one action fires, at
the last call's deadline, and it is the most recently registered action. -/
theorem debouncer_coalesces_last_writer_wins (delay : Nat) (k : GoStr)
    (adds : List (Nat × Nat)) (t0 a0 : Nat)
    (hg : gapsOK delay ((t0, a0) :: adds) = true) :
    runDeb delay (((t0, a0) :: adds).map fun p => (p.1, k, p.2)) [] [] =
      [((adds.getLastD (t0, a0)).1 + delay, k, (adds.getLastD (t0, a0)).2)] := by
  have step1 : runDeb delay (((t0, a0) :: adds).map fun p => (p.1, k, p.2)) [] [] =
      runDeb delay (adds.map fun p => (p.1, k, p.2)) [⟨k, a0, t0 + delay⟩] [] := by
    simp [runDeb, debAdd]
  rw [step1]
  simpa using runDeb_single_key delay k adds t0 a0 [] hg

/-- The claim's concrete burst: delay 100, calls at 0, 20 and 40 with
actions 1, 2, 3; only action 3 fires, at time 140. -/
theorem debouncer_coalesces_witness :
    gapsOK 100 [(0, 1), (20, 2), (40, 3)] = true ∧
    runDeb 100 ([(0, 1), (20, 2), (40, 3)].map fun p => (p.1, "k".toList, p.2)) [] [] =
      [(140, "k".toList, 3)] :=
  ⟨by decide,
   debouncer_coalesces_last_writer_wins 100 "k".toList [(20, 2), (40, 3)] 0 1 (by decide)⟩

/-! ## C4 and C5: the parallel invariant -/

/-- Contribution of one goroutine status to the semaphore occupancy. -/
def runWeight : GStatus → Nat
  | .running => 1
  | _ => 0

theorem countRunning_cons (x : GStatus) (t : List GStatus) :
    countRunning (x :: t) = countRunning t + runWeight x := by
  cases x <;> simp [countRunning, runWeight]

theorem countRunning_set :
    ∀ (l : List GStatus) (i : Nat) (a b : GStatus), l.get? i = some a →
      countRunning (l.set i b) + runWeight a = countRunning l + runWeight b := by
  intro l
  induction l with
  | nil => intro i a b h; simp at h
  | cons x xs ih =>
    intro i a b h
    cases i with
    | zero =>
      have hx : x = a := by simpa using h
      subst hx
      simp only [List.set]
      rw [countRunning_cons, countRunning_cons]
      omega
    | succ m =>
      have h' : xs.get? m = some a := by simpa using h
      simp only [List.set]
      rw [countRunning_cons, countRunning_cons]
      have := ih m a b h'
      omega

/-- The inductive invariant of `executeParallel`: slice lengths are fixed,
never more than `M` goroutines hold a slot, a finished goroutine's slot
holds its own command's result, every other slot still holds the zero
value, and a goroutine abandons only under a cancelled context. -/
def pInv (n M : Nat) (execRes : Nat → RunResult) (st : PState) : Prop :=
  st.status.length = n ∧
  st.slots.length = n ∧
  countRunning st.status ≤ M ∧
  (∀ i, st.status.get? i = some .doneRan → st.slots.get? i = some (execRes i)) ∧
  (∀ i, i < n → st.status.get? i ≠ some .doneRan →
    st.slots.get? i = some zeroRunResult) ∧
  (∀ i, st.status.get? i = some .doneAbandoned → st.cancelled = true)

theorem countRunning_replicate_waiting :
    ∀ m : Nat, countRunning (List.replicate m .waiting) = 0 := by
  intro m
  induction m with
  | zero => rfl
  | succ k ih => simpa [List.replicate, countRunning] using ih

theorem pInv_init (n M : Nat) (execRes : Nat → RunResult) :
    pInv n M execRes (pInit n) := by
  simp only [pInv, pInit]
  refine ⟨List.length_replicate n _, List.length_replicate n _, ?_, ?_, ?_, ?_⟩
  · rw [countRunning_replicate_waiting]; omega
  · intro i h
    rw [List.get?_eq_getElem?, List.getElem?_replicate] at h
    by_cases hi : i < n <;> simp [hi] at h
  · intro i hi _
    rw [List.get?_eq_getElem?, List.getElem?_replicate]
    simp [hi]
  · intro i h
    rw [List.get?_eq_getElem?, List.getElem?_replicate] at h
    by_cases hi : i < n <;> simp [hi] at h

theorem pInv_step {n M : Nat} {execRes : Nat → RunResult} {st st' : PState}
    (hinv : pInv n M execRes st) (hstep : PStep M execRes st st') :
    pInv n M execRes st' := by
  obtain ⟨hls, hlr, hcnt, hran, hzero, hab⟩ := hinv
  cases hstep with
  | acquire i hw hlt =>
    have hw' : st.status.get? i = some .waiting := hw
    have hc := countRunning_set st.status i .waiting .running hw'
    refine ⟨by simpa using hls, hlr, ?_, ?_, ?_, ?_⟩
    · show countRunning (st.status.set i GStatus.running) ≤ M
      simp only [runWeight] at hc
      omega
    · intro j hj
      by_cases hij : j = i
      · subst hij
        rw [List.get?_eq_getElem?, List.getElem?_set_self'] at hj
        rw [List.get?_eq_getElem?] at hw'
        rw [hw'] at hj
        simp at hj
      · rw [List.get?_eq_getElem?, List.getElem?_set_ne (by omega)] at hj
        rw [← List.get?_eq_getElem?] at hj
        exact hran j hj
    · intro j hjn hj
      by_cases hij : j = i
      · subst hij
        exact hzero j hjn (by rw [hw']; simp)
      · rw [List.get?_eq_getElem?, List.getElem?_set_ne (by omega),
          ← List.get?_eq_getElem?] at hj
        exact hzero j hjn hj
    · intro j hj
      by_cases hij : j = i
      · subst hij
        rw [List.get?_eq_getElem?, List.getElem?_set_self'] at hj
        rw [List.get?_eq_getElem?] at hw'
        rw [hw'] at hj
        simp at hj
      · rw [List.get?_eq_getElem?, List.getElem?_set_ne (by omega),
          ← List.get?_eq_getElem?] at hj
        exact hab j hj
  | abandon i hw hc =>
    have hw' : st.status.get? i = some .waiting := hw
    have hcc := countRunning_set st.status i .waiting .doneAbandoned hw'
    refine ⟨by simpa using hls, hlr, ?_, ?_, ?_, ?_⟩
    · show countRunning (st.status.set i GStatus.doneAbandoned) ≤ M
      simp only [runWeight] at hcc
      omega
    · intro j hj
      by_cases hij : j = i
      · subst hij
        rw [List.get?_eq_getElem?, List.getElem?_set_self'] at hj
        rw [List.get?_eq_getElem?] at hw'
        rw [hw'] at hj
        simp at hj
      · rw [List.get?_eq_getElem?, List.getElem?_set_ne (by omega),
          ← List.get?_eq_getElem?] at hj
        exact hran j hj
    · intro j hjn hj
      by_cases hij : j = i
      · subst hij
        exact hzero j hjn (by rw [hw']; simp)
      · rw [List.get?_eq_getElem?, List.getElem?_set_ne (by omega),
          ← List.get?_eq_getElem?] at hj
        exact hzero j hjn hj
    · intro j _
      exact hc
  | finish i hr =>
    have hr' : st.status.get? i = some .running := hr
    have hilt : i < st.status.length := by
      by_contra hge
      rw [List.get?_eq_getElem?, List.getElem?_eq_none (by omega)] at hr'
      exact Option.noConfusion hr'
    have hiltr : i < st.slots.length := by omega
    have hcc := countRunning_set st.status i .running .doneRan hr'
    refine ⟨by simpa using hls, by simpa using hlr, ?_, ?_, ?_, ?_⟩
    · show countRunning (st.status.set i GStatus.doneRan) ≤ M
      simp only [runWeight] at hcc
      omega
    · intro j hj
      by_cases hij : j = i
      · subst hij
        rw [List.get?_eq_getElem?, List.getElem?_set_self',
          List.getElem?_eq_getElem hiltr]
        rfl
      · rw [List.get?_eq_getElem?, List.getElem?_set_ne (by omega),
          ← List.get?_eq_getElem?] at hj
        rw [List.get?_eq_getElem?, List.getElem?_set_ne (by omega),
          ← List.get?_eq_getElem?]
        exact hran j hj
    · intro j hjn hj
      by_cases hij : j = i
      · subst hij
        exfalso
        apply hj
        rw [List.get?_eq_getElem?, List.getElem?_set_self',
          List.getElem?_eq_getElem hilt]
        rfl
      · rw [List.get?_eq_getElem?, List.getElem?_set_ne (by omega),
          ← List.get?_eq_getElem?] at hj
        rw [List.get?_eq_getElem?, List.getElem?_set_ne (by omega),
          ← List.get?_eq_getElem?]
        exact hzero j hjn hj
    · intro j hj
      by_cases hij : j = i
      · subst hij
        rw [List.get?_eq_getElem?, List.getElem?_set_self'] at hj
        rw [List.get?_eq_getElem?] at hr'
        rw [hr'] at hj
        simp at hj
      · rw [List.get?_eq_getElem?, List.getElem?_set_ne (by omega),
          ← List.get?_eq_getElem?] at hj
        exact hab j hj
  | cancel _hf =>
    exact ⟨hls, hlr, hcnt, hran, hzero, fun j _ => rfl⟩

theorem pInv_reach {n M : Nat} {execRes : Nat → RunResult} {st : PState}
    (h : PReach n M execRes st) : pInv n M execRes st := by
  induction h with
  | init => exact pInv_init n M execRes
  | step _hr hs ih => exact pInv_step ih hs

/-- C4: when `executeParallel` returns (every goroutine done), the result
slice has one slot per command; slot `i` of a command that ran holds command
`i`'s own result, and slot `i` of a command abandoned while waiting for a
slot still holds the zero value — never a fabricated result. -/
theorem parallel_results_index_addressed (n M : Nat) (execRes : Nat → RunResult)
    (st : PState) (hreach : PReach n M execRes st)
    (_hdone : ∀ i, i < n → st.status.get? i = some .doneRan ∨
      st.status.get? i = some .doneAbandoned) :
    st.slots.length = n ∧
    ∀ i, i < n →
      (st.status.get? i = some .doneRan → st.slots.get? i = some (execRes i)) ∧
      (st.status.get? i = some .doneAbandoned →
        st.slots.get? i = some zeroRunResult) := by
  obtain ⟨_hls, hlr, _hcnt, hran, hzero, _hab⟩ := pInv_reach hreach
  refine ⟨hlr, fun i hi => ⟨hran i, fun habd => hzero i hi ?_⟩⟩
  rw [habd]
  simp

/-- C5: in every reachable state of `executeParallel`, at most `M`
goroutines hold an admission slot, and a goroutine is abandoned only after
the shared context has been cancelled (`g.Wait()` returns only once every
goroutine is done, which is how the terminal states of `PReach` arise). -/
theorem parallel_concurrency_ceiling (n M : Nat) (execRes : Nat → RunResult)
    (st : PState) (_hM : 1 ≤ M) (hreach : PReach n M execRes st) :
    countRunning st.status ≤ M ∧
    (∀ i, st.status.get? i = some .doneAbandoned → st.cancelled = true) := by
  obtain ⟨_, _, hcnt, _, _, hab⟩ := pInv_reach hreach
  exact ⟨hcnt, hab⟩

/-- A fixed single-command result used by the concrete parallel traces. -/
def execResEcho : Nat → RunResult := fun _ => ⟨["echo".toList], 0, 0, none⟩

theorem parallel_results_index_addressed_witness :
    (PState.mk [GStatus.doneRan] [execResEcho 0] false).slots.get? 0 =
      some (execResEcho 0) := by
  have h0 : PReach 1 1 execResEcho (pInit 1) := .init
  have h1 : PReach 1 1 execResEcho ⟨[GStatus.running], [zeroRunResult], false⟩ :=
    PReach.step h0 (PStep.acquire (pInit 1) 0 (by decide) (by decide))
  have h2 : PReach 1 1 execResEcho ⟨[GStatus.doneRan], [execResEcho 0], false⟩ :=
    PReach.step h1 (PStep.finish ⟨[GStatus.running], [zeroRunResult], false⟩ 0 (by decide))
  exact ((parallel_results_index_addressed 1 1 execResEcho _ h2
    (by decide)).2 0 (by omega)).1 (by decide)

theorem parallel_concurrency_ceiling_witness :
    countRunning [GStatus.running] ≤ 1 := by
  have h0 : PReach 1 1 execResEcho (pInit 1) := .init
  have h1 : PReach 1 1 execResEcho ⟨[GStatus.running], [zeroRunResult], false⟩ :=
    PReach.step h0 (PStep.acquire (pInit 1) 0 (by decide) (by decide))
  exact (parallel_concurrency_ceiling 1 1 execResEcho _ (by omega) h1).1
